import Mathlib

/-!
Verification of the JSON extraction core of `src/json-extractor-server.js`.

The only function with algorithmic content in the repository is `extractJson`
(lines 19-50).  We embed it shallowly:

* text is a `String` (a `List Char` underneath);
* the fenced-block regex `/\x60\x60\x60(?:json)?\s*(\x7b[\s\S]*?\x7d)\s*\x60\x60\x60/`
  is modelled by `findFenced` (leftmost match, lazy body capture, greedy
  whitespace runs — the deterministic residue of JS backtracking for this
  particular pattern);
* the fallback regex `/(\x7b[\s\S]*\x7d)/` is modelled by `fallbackMatch`
  (first opening brace to last closing brace);
* `JSON.parse` is modelled by `Json.parse`, a recursive-descent parser over
  the JSON grammar; JSON numbers are modelled as arbitrary-precision
  integers (fractional and exponent literals, and IEEE-754 rounding, are
  outside the embedding; no claim under verification involves them);
  strings inside a JSON document keep the sequence of member pairs as
  written;
* `JSON.stringify` (used only to state the round-trip claim) is modelled by
  `Json.stringify`;
* the exception flow of the source is explicit: `JSON.parse` throwing is an
  `Except.error`, the inner `try/catch` around the fallback parse swallows
  it, and the outer `try/catch` of `extractJson` maps any escaping error to
  `null` (`none`).
-/

namespace JsonExtractor

/-- The character `\x7b` (opening brace). -/
def lbrace : Char := Char.ofNat 123

/-- The character `\x7d` (closing brace). -/
def rbrace : Char := Char.ofNat 125

/-- The backtick character. -/
def btick : Char := Char.ofNat 96

/-- JSON values, as produced by the modelled `JSON.parse`.  Object members
are kept as the list of key/value pairs in document order. -/
inductive Json where
  | null : Json
  | bool : Bool → Json
  | num : Int → Json
  | str : List Char → Json
  | arr : List Json → Json
  | obj : List (List Char × Json) → Json

/-- Is the value a JSON object? -/
def Json.isObj : Json → Bool
  | .obj _ => true
  | _ => false

/-- The whitespace characters accepted between JSON tokens by `JSON.parse`. -/
def isJsonWs (c : Char) : Bool :=
  c = ' ' || c = '\t' || c = '\n' || c = '\r'

/-- Skip JSON inter-token whitespace. -/
def skipJWs (l : List Char) : List Char := l.dropWhile isJsonWs

/-- Numeric value of a decimal digit character. -/
def digitVal (c : Char) : Option Nat :=
  if 48 ≤ c.toNat ∧ c.toNat ≤ 57 then some (c.toNat - 48) else none

/-- Numeric value of a hexadecimal digit character (both cases). -/
def hexVal (c : Char) : Option Nat :=
  if 48 ≤ c.toNat ∧ c.toNat ≤ 57 then some (c.toNat - 48)
  else if 97 ≤ c.toNat ∧ c.toNat ≤ 102 then some (c.toNat - 87)
  else if 65 ≤ c.toNat ∧ c.toNat ≤ 70 then some (c.toNat - 55)
  else none

/-- The single-character escapes accepted after a backslash in a JSON
string literal. -/
def escChar (c : Char) : Option Char :=
  if c = '"' then some '"'
  else if c = '\\' then some '\\'
  else if c = '/' then some '/'
  else if c = 'b' then some (Char.ofNat 8)
  else if c = 'f' then some (Char.ofNat 12)
  else if c = 'n' then some '\n'
  else if c = 'r' then some '\r'
  else if c = 't' then some '\t'
  else none

/-- Parse the body of a JSON string literal (the opening quote already
consumed); returns the decoded characters and the rest of the input after
the closing quote.  Raw control characters are rejected, as `JSON.parse`
rejects them.  The fuel argument is an artifact of the embedding: every
recursive call consumes at least one input character, so a fuel exceeding
the input length never runs out. -/
def parseStringBody : Nat → List Char → Option (List Char × List Char)
  | 0, _ => none
  | _, [] => none
  | Nat.succ f, c :: t =>
    if c = '"' then some ([], t)
    else if c = '\\' then
      match t with
      | [] => none
      | e :: t1 =>
        if e = 'u' then
          match t1 with
          | h1 :: h2 :: h3 :: h4 :: t2 =>
            match hexVal h1, hexVal h2, hexVal h3, hexVal h4 with
            | some a, some b, some c2, some d2 =>
              (parseStringBody f t2).map
                (fun p => (Char.ofNat (((a * 16 + b) * 16 + c2) * 16 + d2) :: p.1, p.2))
            | _, _, _, _ => none
          | _ => none
        else
          match escChar e with
          | some d => (parseStringBody f t1).map (fun p => (d :: p.1, p.2))
          | none => none
    else if c.toNat < 32 then none
    else (parseStringBody f t).map (fun p => (c :: p.1, p.2))

/-- Consume a maximal run of decimal digits, folding them onto an
accumulator. -/
def parseDigitsAcc : List Char → Nat → Nat × List Char
  | [], acc => (acc, [])
  | c :: t, acc =>
    match digitVal c with
    | some d => parseDigitsAcc t (acc * 10 + d)
    | none => (acc, c :: t)

/-- Parse a JSON natural-number token (`0`, or a nonzero digit followed by
digits).  A leading `0` is not allowed to be followed by more digits: as in
`JSON.parse`, the extra digits are left in the rest and make the enclosing
parse fail. -/
def parseNatTok (l : List Char) : Option (Nat × List Char) :=
  match l with
  | [] => none
  | c :: t =>
    match digitVal c with
    | none => none
    | some d =>
      if d = 0 then some (0, t)
      else some (parseDigitsAcc t d)

/-- Parse a JSON integer token with optional leading minus sign. -/
def parseIntTok (l : List Char) : Option (Int × List Char) :=
  match l with
  | [] => none
  | c :: t =>
    if c = '-' then (parseNatTok t).map (fun p => (-(p.1 : Int), p.2))
    else (parseNatTok l).map (fun p => ((p.1 : Int), p.2))

/-- The characters of the literal `true`. -/
def trueTag : List Char := ['t', 'r', 'u', 'e']

/-- The characters of the literal `false`. -/
def falseTag : List Char := ['f', 'a', 'l', 's', 'e']

/-- The characters of the literal `null`. -/
def nullTag : List Char := ['n', 'u', 'l', 'l']

mutual

/-- Parse a JSON value (leading whitespace allowed); fuel-driven recursion,
`Json.parse` supplies enough fuel for its whole input. -/
def parseValue : Nat → List Char → Option (Json × List Char)
  | 0, _ => none
  | Nat.succ f, l =>
    match skipJWs l with
    | [] => none
    | c :: t =>
      if c = lbrace then
        match skipJWs t with
        | [] => none
        | d :: t1 =>
          if d = rbrace then some (.obj [], t1)
          else (parseMembers f (d :: t1)).map (fun p => (.obj p.1, p.2))
      else if c = '[' then
        match skipJWs t with
        | [] => none
        | d :: t1 =>
          if d = ']' then some (.arr [], t1)
          else (parseElems f (d :: t1)).map (fun p => (.arr p.1, p.2))
      else if c = '"' then
        (parseStringBody (t.length + 1) t).map (fun p => (.str p.1, p.2))
      else if trueTag.isPrefixOf (c :: t) then some (.bool true, (c :: t).drop 4)
      else if falseTag.isPrefixOf (c :: t) then some (.bool false, (c :: t).drop 5)
      else if nullTag.isPrefixOf (c :: t) then some (.null, (c :: t).drop 4)
      else (parseIntTok (c :: t)).map (fun p => (.num p.1, p.2))

/-- Parse a nonempty sequence of object members up to and including the
closing brace; the input starts at the first member (whitespace already
skipped). -/
def parseMembers : Nat → List Char → Option (List (List Char × Json) × List Char)
  | 0, _ => none
  | Nat.succ f, l =>
    match l with
    | [] => none
    | c :: t =>
      if c = '"' then
        match parseStringBody (t.length + 1) t with
        | none => none
        | some (k, r1) =>
          match skipJWs r1 with
          | [] => none
          | c2 :: r2 =>
            if c2 = ':' then
              match parseValue f r2 with
              | none => none
              | some (v, r3) =>
                match skipJWs r3 with
                | [] => none
                | c3 :: r4 =>
                  if c3 = ',' then
                    (parseMembers f (skipJWs r4)).map (fun p => ((k, v) :: p.1, p.2))
                  else if c3 = rbrace then some ([(k, v)], r4)
                  else none
            else none
      else none

/-- Parse a nonempty sequence of array elements up to and including the
closing bracket. -/
def parseElems : Nat → List Char → Option (List Json × List Char)
  | 0, _ => none
  | Nat.succ f, l =>
    match parseValue f l with
    | none => none
    | some (v, r) =>
      match skipJWs r with
      | [] => none
      | c :: r2 =>
        if c = ',' then (parseElems f r2).map (fun p => (v :: p.1, p.2))
        else if c = ']' then some ([v], r2)
        else none

end

/-- Model of `JSON.parse`: parse one JSON value, allow surrounding
whitespace, reject trailing input.  `none` stands for `JSON.parse`
throwing a `SyntaxError`. -/
def Json.parse (l : List Char) : Option Json :=
  match parseValue (l.length + 1) l with
  | some (v, r) => if skipJWs r = [] then some v else none
  | none => none

/-! ### The printer (model of `JSON.stringify`, used by the round-trip claim) -/

/-- Decimal digit character for a value below ten. -/
def digitChar (d : Nat) : Char := Char.ofNat (48 + d)

/-- Lowercase hexadecimal digit character, as `JSON.stringify` emits in
`\uXXXX` escapes. -/
def hexDigit (d : Nat) : Char :=
  if d < 10 then Char.ofNat (48 + d) else Char.ofNat (87 + d)

/-- The decimal digits of `n`, least significant first.  The fuel argument
is an artifact of the embedding; any fuel at least the number of digits of
`n` gives the digits of `n`. -/
def toDigitsRev : Nat → Nat → List Char
  | 0, _ => []
  | Nat.succ f, n =>
    if n < 10 then [digitChar n]
    else digitChar (n % 10) :: toDigitsRev f (n / 10)

/-- Decimal notation of a natural number. -/
def printNat (n : Nat) : List Char := (toDigitsRev (n + 1) n).reverse

/-- Decimal notation of an integer. -/
def printInt (i : Int) : List Char :=
  if i < 0 then '-' :: printNat i.natAbs else printNat i.natAbs

/-- How `JSON.stringify` renders one character inside a string literal:
quote, backslash and the named control characters get two-character
escapes, the remaining control characters get `\u00XX`, everything else is
copied verbatim. -/
def escapeChar (c : Char) : List Char :=
  if c = '"' then ['\\', '"']
  else if c = '\\' then ['\\', '\\']
  else if c = Char.ofNat 8 then ['\\', 'b']
  else if c = Char.ofNat 12 then ['\\', 'f']
  else if c = '\n' then ['\\', 'n']
  else if c = '\r' then ['\\', 'r']
  else if c = '\t' then ['\\', 't']
  else if c.toNat < 32 then
    ['\\', 'u', '0', '0', hexDigit (c.toNat / 16), hexDigit (c.toNat % 16)]
  else [c]

/-- `JSON.stringify` escaping of a whole string body. -/
def escapeStr (s : List Char) : List Char := (s.map escapeChar).flatten

mutual

/-- Model of `JSON.stringify` (no indentation argument): the compact
rendering with no whitespace between tokens. -/
def Json.stringify : Json → List Char
  | .null => nullTag
  | .bool true => trueTag
  | .bool false => falseTag
  | .num i => printInt i
  | .str s => '"' :: (escapeStr s ++ ['"'])
  | .arr es => '[' :: (stringifyElems es ++ [']'])
  | .obj ms => lbrace :: (stringifyMembers ms ++ [rbrace])

/-- Comma-separated rendering of array elements. -/
def stringifyElems : List Json → List Char
  | [] => []
  | [v] => v.stringify
  | v :: vs => v.stringify ++ ',' :: stringifyElems vs

/-- Comma-separated rendering of object members. -/
def stringifyMembers : List (List Char × Json) → List Char
  | [] => []
  | [(k, v)] => '"' :: (escapeStr k ++ '"' :: ':' :: v.stringify)
  | (k, v) :: ms => ('"' :: (escapeStr k ++ '"' :: ':' :: v.stringify)) ++ ',' :: stringifyMembers ms

end

/-! ### Round-trip facts about numbers -/

/-- The digit folding step used by `parseDigitsAcc`. -/
def digStep (a : Nat) (c : Char) : Nat := a * 10 + ((digitVal c).getD 0)

/-- Reading back a printed digit. -/
theorem digitVal_digitChar (d : Nat) (h : d < 10) : digitVal (digitChar d) = some d := by
  interval_cases d <;> rfl

/-- Reading back a printed hexadecimal digit. -/
theorem hexVal_hexDigit (d : Nat) (h : d < 16) : hexVal (hexDigit d) = some d := by
  interval_cases d <;> rfl

/-- `parseDigitsAcc` consumes exactly a run of digits, folding them onto
the accumulator, and stops at the first non-digit. -/
theorem parseDigitsAcc_append (ds : List Char) : ∀ acc rest,
    (∀ c ∈ ds, (digitVal c).isSome) →
    (∀ c t, rest = c :: t → digitVal c = none) →
    parseDigitsAcc (ds ++ rest) acc = (ds.foldl digStep acc, rest) := by
  induction ds with
  | nil =>
    intro acc rest _ hrest
    cases rest with
    | nil => rfl
    | cons c t =>
      show parseDigitsAcc (c :: t) acc = (List.foldl digStep acc [], c :: t)
      unfold parseDigitsAcc
      rw [hrest c t rfl]
      rfl
  | cons d ds ih =>
    intro acc rest hds hrest
    have hd : (digitVal d).isSome := hds d (List.mem_cons_self d ds)
    obtain ⟨k, hk⟩ := Option.isSome_iff_exists.mp hd
    show parseDigitsAcc (d :: (ds ++ rest)) acc = _
    unfold parseDigitsAcc
    rw [hk]
    dsimp only
    rw [ih (acc * 10 + k) rest (fun c hc => hds c (List.mem_cons_of_mem d hc)) hrest]
    simp [digStep, hk]

/-- All characters `toDigitsRev` produces are decimal digits. -/
theorem toDigitsRev_digits (f : Nat) : ∀ n c, c ∈ toDigitsRev f n → (digitVal c).isSome := by
  induction f with
  | zero => intro n c hc; simp [toDigitsRev] at hc
  | succ f ih =>
    intro n c hc
    unfold toDigitsRev at hc
    split at hc
    · rename_i h10
      rw [List.mem_singleton] at hc
      rw [hc, digitVal_digitChar n h10]
      rfl
    · cases hc with
      | head => rw [digitVal_digitChar (n % 10) (Nat.mod_lt n (by omega))]; rfl
      | tail _ hm => exact ih (n / 10) c hm

/-- Folding the printed digits of `n` onto an accumulator. -/
theorem toDigitsRev_foldl (f : Nat) : ∀ n acc, n < 10 ^ f →
    ((toDigitsRev f n).reverse).foldl digStep acc =
      acc * 10 ^ (toDigitsRev f n).length + n := by
  induction f with
  | zero =>
    intro n acc hn
    have : n = 0 := by simpa using hn
    subst this
    simp [toDigitsRev]
  | succ f ih =>
    intro n acc hn
    unfold toDigitsRev
    split
    · rename_i h10
      simp [List.foldl, digStep, digitVal_digitChar n h10]
    · rename_i h10
      have hdiv : n / 10 < 10 ^ f := by
        rw [Nat.div_lt_iff_lt_mul (by omega)]
        calc n < 10 ^ (f + 1) := hn
        _ = 10 ^ f * 10 := by ring
      rw [List.reverse_cons, List.foldl_append, ih (n / 10) acc hdiv]
      simp only [List.foldl, digStep, digitVal_digitChar (n % 10) (Nat.mod_lt n (by omega))]
      simp only [List.length_cons, Option.getD_some]
      ring_nf
      omega

/-- For positive `n` the leading printed digit is nonzero. -/
theorem toDigitsRev_msd (f : Nat) : ∀ n, 0 < n → n < 10 ^ f →
    ∃ d t k, (toDigitsRev f n).reverse = d :: t ∧ digitVal d = some k ∧ k ≠ 0 := by
  induction f with
  | zero =>
    intro n hpos hn
    exfalso
    simp at hn
    omega
  | succ f ih =>
    intro n hpos hn
    unfold toDigitsRev
    split
    · rename_i h10
      exact ⟨digitChar n, [], n, by simp, digitVal_digitChar n h10, by omega⟩
    · rename_i h10
      have hdivpos : 0 < n / 10 := Nat.div_pos (by omega) (by omega)
      have hdiv : n / 10 < 10 ^ f := by
        rw [Nat.div_lt_iff_lt_mul (by omega)]
        calc n < 10 ^ (f + 1) := hn
        _ = 10 ^ f * 10 := by ring
      obtain ⟨d, t, k, hdt, hdk, hk⟩ := ih (n / 10) hdivpos hdiv
      exact ⟨d, t ++ [digitChar (n % 10)], k, by rw [List.reverse_cons, hdt]; rfl, hdk, hk⟩

/-- Reading back a printed natural number. -/
theorem parseNatTok_printNat (n : Nat) (rest : List Char)
    (hrest : ∀ c t, rest = c :: t → digitVal c = none) :
    parseNatTok (printNat n ++ rest) = some (n, rest) := by
  have hn : n < 10 ^ (n + 1) := lt_of_lt_of_le (Nat.lt_pow_self (by omega) n)
    (Nat.pow_le_pow_right (by omega) (Nat.le_succ n))
  rcases Nat.eq_zero_or_pos n with hz | hpos
  · subst hz
    rfl
  · obtain ⟨d, t, k, hdt, hdk, hk⟩ := toDigitsRev_msd (n + 1) n hpos hn
    unfold printNat
    rw [hdt]
    show parseNatTok (d :: (t ++ rest)) = _
    unfold parseNatTok
    dsimp only
    rw [hdk]
    dsimp only
    rw [if_neg hk]
    have htdigits : ∀ c ∈ t, (digitVal c).isSome := by
      intro c hc
      have : c ∈ (toDigitsRev (n + 1) n).reverse := by
        rw [hdt]; exact List.mem_cons_of_mem d hc
      exact toDigitsRev_digits (n + 1) n c (List.mem_reverse.mp this)
    rw [parseDigitsAcc_append t k rest htdigits hrest]
    have hfold : (d :: t).foldl digStep 0 = n := by
      have := toDigitsRev_foldl (n + 1) n 0 hn
      rw [hdt] at this
      simpa using this
    have : t.foldl digStep k = n := by
      have h0 : digStep 0 d = k := by simp [digStep, hdk]
      calc t.foldl digStep k = t.foldl digStep (digStep 0 d) := by rw [h0]
      _ = (d :: t).foldl digStep 0 := rfl
      _ = n := hfold
    rw [this]

/-- A digit character is not the minus sign. -/
theorem digit_ne_minus (c : Char) (h : (digitVal c).isSome) : ¬ c = '-' := by
  intro hc
  rw [hc] at h
  simp [digitVal] at h

/-- `printNat` always starts with a digit. -/
theorem printNat_head (n : Nat) : ∃ d t, printNat n = d :: t ∧ (digitVal d).isSome := by
  have hne : toDigitsRev (n + 1) n ≠ [] := by
    unfold toDigitsRev
    split <;> simp
  have : printNat n ≠ [] := by
    unfold printNat
    simpa using hne
  cases hd : printNat n with
  | nil => exact absurd hd this
  | cons d t =>
    refine ⟨d, t, rfl, ?_⟩
    have : d ∈ (toDigitsRev (n + 1) n).reverse := by
      rw [show (toDigitsRev (n + 1) n).reverse = printNat n from rfl, hd]
      exact List.mem_cons_self d t
    exact toDigitsRev_digits (n + 1) n d (List.mem_reverse.mp this)

/-- Reading back a printed integer. -/
theorem parseIntTok_printInt (i : Int) (rest : List Char)
    (hrest : ∀ c t, rest = c :: t → digitVal c = none) :
    parseIntTok (printInt i ++ rest) = some (i, rest) := by
  unfold printInt
  split
  · rename_i hneg
    show parseIntTok ('-' :: (printNat i.natAbs ++ rest)) = _
    unfold parseIntTok
    dsimp only
    rw [if_pos rfl, parseNatTok_printNat i.natAbs rest hrest]
    have habs : -((i.natAbs : Int)) = i := by omega
    dsimp only [Option.map]
    rw [habs]
  · rename_i hpos
    obtain ⟨d, t, hdt, hd⟩ := printNat_head i.natAbs
    rw [hdt]
    show parseIntTok (d :: (t ++ rest)) = _
    unfold parseIntTok
    dsimp only
    rw [if_neg (digit_ne_minus d hd)]
    have : parseNatTok (d :: (t ++ rest)) = some (i.natAbs, rest) := by
      have := parseNatTok_printNat i.natAbs rest hrest
      rw [hdt] at this
      exact this
    rw [this]
    have habs : ((i.natAbs : Int)) = i := by omega
    dsimp only [Option.map]
    rw [habs]

/-! ### Round-trip facts about string literals -/

/-- `escapeStr` distributes over cons. -/
theorem escapeStr_cons (c : Char) (s : List Char) :
    escapeStr (c :: s) = escapeChar c ++ escapeStr s := rfl

/-- One parsing step through a two-character escape. -/
theorem parseStringBody_esc_step (f : Nat) (e d : Char) (he : escChar e = some d)
    (hne : ¬ e = 'u') (X : List Char) :
    parseStringBody (Nat.succ f) ('\\' :: e :: X) =
      (parseStringBody f X).map (fun p => (d :: p.1, p.2)) := by
  simp only [parseStringBody]
  rw [if_pos trivial, if_neg hne, he, if_neg (show ¬ ('\\' : Char) = '"' by decide)]

/-- One parsing step through a `\uXXXX` escape. -/
theorem parseStringBody_u_step (f : Nat) (h1 h2 h3 h4 : Char) (a b c2 d2 : Nat)
    (ha : hexVal h1 = some a) (hb : hexVal h2 = some b)
    (hc : hexVal h3 = some c2) (hd : hexVal h4 = some d2) (X : List Char) :
    parseStringBody (Nat.succ f) ('\\' :: 'u' :: h1 :: h2 :: h3 :: h4 :: X) =
      (parseStringBody f X).map
        (fun p => (Char.ofNat (((a * 16 + b) * 16 + c2) * 16 + d2) :: p.1, p.2)) := by
  simp only [parseStringBody]
  rw [if_pos trivial, if_pos trivial, ha, hb, hc, hd,
    if_neg (show ¬ ('\\' : Char) = '"' by decide)]

/-- Reading back an escaped string body: the parse undoes
`JSON.stringify` escaping exactly. -/
theorem parseStringBody_escape (s : List Char) : ∀ (f : Nat) (rest : List Char),
    s.length < f →
    parseStringBody f (escapeStr s ++ '"' :: rest) = some (s, rest) := by
  induction s with
  | nil =>
    intro f rest hf
    cases f with
    | zero => omega
    | succ f => rfl
  | cons c s ih =>
    intro f rest hf
    cases f with
    | zero => omega
    | succ f =>
    have hf' : s.length < f := by simp at hf; omega
    rw [escapeStr_cons, List.append_assoc]
    by_cases h1 : c = '"'
    · subst h1
      show parseStringBody (Nat.succ f) ('\\' :: '"' :: (escapeStr s ++ '"' :: rest)) = _
      rw [parseStringBody_esc_step f '"' '"' (by decide) (by decide), ih f rest hf']
      rfl
    by_cases h2 : c = '\\'
    · subst h2
      show parseStringBody (Nat.succ f) ('\\' :: '\\' :: (escapeStr s ++ '"' :: rest)) = _
      rw [parseStringBody_esc_step f '\\' '\\' (by decide) (by decide), ih f rest hf']
      rfl
    by_cases h3 : c = Char.ofNat 8
    · subst h3
      show parseStringBody (Nat.succ f) ('\\' :: 'b' :: (escapeStr s ++ '"' :: rest)) = _
      rw [parseStringBody_esc_step f 'b' (Char.ofNat 8) (by decide) (by decide), ih f rest hf']
      rfl
    by_cases h4 : c = Char.ofNat 12
    · subst h4
      show parseStringBody (Nat.succ f) ('\\' :: 'f' :: (escapeStr s ++ '"' :: rest)) = _
      rw [parseStringBody_esc_step f 'f' (Char.ofNat 12) (by decide) (by decide), ih f rest hf']
      rfl
    by_cases h5 : c = '\n'
    · subst h5
      show parseStringBody (Nat.succ f) ('\\' :: 'n' :: (escapeStr s ++ '"' :: rest)) = _
      rw [parseStringBody_esc_step f 'n' '\n' (by decide) (by decide), ih f rest hf']
      rfl
    by_cases h6 : c = '\r'
    · subst h6
      show parseStringBody (Nat.succ f) ('\\' :: 'r' :: (escapeStr s ++ '"' :: rest)) = _
      rw [parseStringBody_esc_step f 'r' '\r' (by decide) (by decide), ih f rest hf']
      rfl
    by_cases h7 : c = '\t'
    · subst h7
      show parseStringBody (Nat.succ f) ('\\' :: 't' :: (escapeStr s ++ '"' :: rest)) = _
      rw [parseStringBody_esc_step f 't' '\t' (by decide) (by decide), ih f rest hf']
      rfl
    by_cases h8 : c.toNat < 32
    · rw [show escapeChar c =
        ['\\', 'u', '0', '0', hexDigit (c.toNat / 16), hexDigit (c.toNat % 16)] from by
          simp only [escapeChar, if_neg h1, if_neg h2, if_neg h3, if_neg h4, if_neg h5,
            if_neg h6, if_neg h7, if_pos h8]]
      show parseStringBody (Nat.succ f) ('\\' :: 'u' :: '0' :: '0' ::
        hexDigit (c.toNat / 16) :: hexDigit (c.toNat % 16) ::
        (escapeStr s ++ '"' :: rest)) = _
      rw [parseStringBody_u_step f '0' '0' (hexDigit (c.toNat / 16)) (hexDigit (c.toNat % 16))
        0 0 (c.toNat / 16) (c.toNat % 16) rfl rfl
        (hexVal_hexDigit _ (by omega)) (hexVal_hexDigit _ (by omega)), ih f rest hf']
      dsimp only [Option.map]
      have hval : ((0 * 16 + 0) * 16 + c.toNat / 16) * 16 + c.toNat % 16 = c.toNat := by omega
      rw [hval, Char.ofNat_toNat]
    · rw [show escapeChar c = [c] from by
        simp only [escapeChar, if_neg h1, if_neg h2, if_neg h3, if_neg h4, if_neg h5,
          if_neg h6, if_neg h7, if_neg h8]]
      show parseStringBody (Nat.succ f) (c :: (escapeStr s ++ '"' :: rest)) = _
      unfold parseStringBody
      rw [if_neg h1, if_neg h2, if_neg h8, ih f rest hf']
      rfl

/-! ### Auxiliary facts for the value round trip -/

/-- Whitespace skipping is the identity on non-whitespace-headed input. -/
theorem skipJWs_cons_nws (c : Char) (t : List Char) (h : isJsonWs c = false) :
    skipJWs (c :: t) = c :: t := by
  unfold skipJWs
  rw [List.dropWhile_cons_of_neg (by simp [h])]

mutual

/-- Fuel needed by `parseValue` to read back a printed value. -/
def fuelSizeV : Json → Nat
  | .null => 1
  | .bool _ => 1
  | .num _ => 1
  | .str _ => 1
  | .arr es => 1 + fuelSizeE es
  | .obj ms => 1 + fuelSizeM ms

/-- Fuel needed by `parseMembers` to read back printed members. -/
def fuelSizeM : List (List Char × Json) → Nat
  | [] => 0
  | (_, v) :: ms => 1 + fuelSizeV v + fuelSizeM ms

/-- Fuel needed by `parseElems` to read back printed elements. -/
def fuelSizeE : List Json → Nat
  | [] => 0
  | v :: es => 1 + fuelSizeV v + fuelSizeE es

end

/-- Every value needs at least one unit of fuel. -/
theorem fuelSizeV_pos (J : Json) : 1 ≤ fuelSizeV J := by
  cases J <;> simp [fuelSizeV]

/-- The characters that may legitimately follow a printed value inside a
document: nothing, a comma, a closing brace or a closing bracket. -/
def sepOk (rest : List Char) : Prop :=
  match rest with
  | [] => True
  | c :: _ => c = ',' ∨ c = rbrace ∨ c = ']'

/-- A separator-headed rest never starts with a digit. -/
theorem sepOk_digit (rest : List Char) (h : sepOk rest) :
    ∀ c t, rest = c :: t → digitVal c = none := by
  intro c t hct
  subst hct
  rcases h with h | h | h <;> subst h <;> rfl

/-- A decimal digit character has code between 48 and 57. -/
theorem digit_bounds (c : Char) (h : (digitVal c).isSome) :
    48 ≤ c.toNat ∧ c.toNat ≤ 57 := by
  unfold digitVal at h
  split at h
  · assumption
  · simp at h

/-- A digit character is none of the token-leading characters `parseValue`
dispatches on, and is not whitespace. -/
theorem digit_conds (c : Char) (h : (digitVal c).isSome) :
    isJsonWs c = false ∧ ¬ c = lbrace ∧ ¬ c = '[' ∧ ¬ c = '"' ∧
    ¬ c = 't' ∧ ¬ c = 'f' ∧ ¬ c = 'n' ∧ ¬ c = ']' := by
  have hb := digit_bounds c h
  refine ⟨?_, ?_, ?_, ?_, ?_, ?_, ?_, ?_⟩
  · have w1 : ¬ c = ' ' := fun h2 => absurd (h2 ▸ hb) (by decide)
    have w2 : ¬ c = '\t' := fun h2 => absurd (h2 ▸ hb) (by decide)
    have w3 : ¬ c = '\n' := fun h2 => absurd (h2 ▸ hb) (by decide)
    have w4 : ¬ c = '\r' := fun h2 => absurd (h2 ▸ hb) (by decide)
    simp [isJsonWs, w1, w2, w3, w4]
  all_goals exact fun h2 => absurd (h2 ▸ hb) (by decide)

/-- A prefix check fails on a first-character mismatch. -/
theorem isPrefixOf_cons_false (a c : Char) (as t : List Char) (h : ¬ a = c) :
    (a :: as).isPrefixOf (c :: t) = false := by
  simp [List.isPrefixOf, h]

/-- `parseValue` dispatches to the number token parser whenever the head
character rules out every other alternative. -/
theorem parseValue_num_token (f : Nat) (c : Char) (t : List Char)
    (hws : isJsonWs c = false) (h1 : ¬ c = lbrace) (h2 : ¬ c = '[') (h3 : ¬ c = '"')
    (h4 : ¬ c = 't') (h5 : ¬ c = 'f') (h6 : ¬ c = 'n') :
    parseValue (Nat.succ f) (c :: t) =
      (parseIntTok (c :: t)).map (fun p => (Json.num p.1, p.2)) := by
  simp only [parseValue]
  rw [skipJWs_cons_nws c t hws]
  dsimp only
  simp only [trueTag, falseTag, nullTag]
  rw [if_neg h1, if_neg h2, if_neg h3]
  have ht := isPrefixOf_cons_false 't' c ['r', 'u', 'e'] t (fun h => h4 h.symm)
  have hfa := isPrefixOf_cons_false 'f' c ['a', 'l', 's', 'e'] t (fun h => h5 h.symm)
  have hnu := isPrefixOf_cons_false 'n' c ['u', 'l', 'l'] t (fun h => h6 h.symm)
  simp only [ht, hfa, hnu, Bool.false_eq_true, if_false]

/-- Each character escape is nonempty. -/
theorem escapeChar_length_pos (c : Char) : 1 ≤ (escapeChar c).length := by
  unfold escapeChar
  split_ifs <;> simp

/-- Escaping never shortens a string. -/
theorem escapeStr_length_ge (s : List Char) : s.length ≤ (escapeStr s).length := by
  induction s with
  | nil => simp [escapeStr]
  | cons c s ih =>
    rw [escapeStr_cons, List.length_append, List.length_cons]
    have := escapeChar_length_pos c
    omega

/-- A printed integer starts with a digit or a minus sign. -/
theorem printInt_head (i : Int) :
    ∃ c t2, printInt i = c :: t2 ∧ ((digitVal c).isSome ∨ c = '-') := by
  unfold printInt
  split
  · exact ⟨'-', printNat i.natAbs, rfl, Or.inr rfl⟩
  · obtain ⟨d, t, hdt, hd⟩ := printNat_head i.natAbs
    exact ⟨d, t, hdt, Or.inl hd⟩

/-- Every printed value starts with a non-whitespace character other than
a closing bracket. -/
theorem stringify_head (J : Json) :
    ∃ c t2, Json.stringify J = c :: t2 ∧ isJsonWs c = false ∧ ¬ c = ']' := by
  cases J with
  | null => exact ⟨'n', _, rfl, by decide, by decide⟩
  | bool b => cases b with
    | true => exact ⟨'t', _, rfl, by decide, by decide⟩
    | false => exact ⟨'f', _, rfl, by decide, by decide⟩
  | str s => exact ⟨'"', _, rfl, by decide, by decide⟩
  | arr es => exact ⟨'[', _, rfl, by decide, by decide⟩
  | obj ms => exact ⟨lbrace, _, rfl, by decide, by decide⟩
  | num i =>
    obtain ⟨c, t2, hct, hd⟩ := printInt_head i
    refine ⟨c, t2, hct, ?_, ?_⟩
    · rcases hd with hd | rfl
      · exact (digit_conds c hd).1
      · decide
    · rcases hd with hd | rfl
      · exact (digit_conds c hd).2.2.2.2.2.2.2
      · decide

/-- The head of rendered members is always a double quote. -/
theorem stringifyMembers_head (k : List Char) (v : Json) (ms : List (List Char × Json)) :
    ∃ u, stringifyMembers ((k, v) :: ms) = '"' :: u := by
  cases ms with
  | nil => exact ⟨escapeStr k ++ '"' :: ':' :: Json.stringify v, by simp only [stringifyMembers]⟩
  | cons m ms3 =>
    refine ⟨(escapeStr k ++ '"' :: ':' :: Json.stringify v) ++ ',' :: stringifyMembers (m :: ms3), ?_⟩
    simp only [stringifyMembers]
    rw [List.cons_append]

/-- The round trip: parsing a printed value (with a legitimate separator
following) gives the value back, at every sufficient fuel. -/
theorem roundtrip (f : Nat) :
    (∀ (J : Json) (rest : List Char), fuelSizeV J ≤ f → sepOk rest →
      parseValue f (Json.stringify J ++ rest) = some (J, rest)) ∧
    (∀ (ms : List (List Char × Json)) (rest : List Char), ms ≠ [] → fuelSizeM ms ≤ f →
      parseMembers f (stringifyMembers ms ++ rbrace :: rest) = some (ms, rest)) ∧
    (∀ (es : List Json) (rest : List Char), es ≠ [] → fuelSizeE es ≤ f →
      parseElems f (stringifyElems es ++ ']' :: rest) = some (es, rest)) := by
  induction f with
  | zero =>
    refine ⟨?_, ?_, ?_⟩
    · intro J rest h1 _
      have := fuelSizeV_pos J
      omega
    · intro ms rest hne h1
      cases ms with
      | nil => exact absurd rfl hne
      | cons kv ms =>
        obtain ⟨k, v⟩ := kv
        have e : fuelSizeM ((k, v) :: ms) = 1 + fuelSizeV v + fuelSizeM ms := rfl
        omega
    · intro es rest hne h1
      cases es with
      | nil => exact absurd rfl hne
      | cons v es =>
        have e : fuelSizeE (v :: es) = 1 + fuelSizeV v + fuelSizeE es := rfl
        omega
  | succ f ih =>
    obtain ⟨ihV, ihM, ihE⟩ := ih
    refine ⟨?_, ?_, ?_⟩
    · intro J rest hf hsep
      cases J with
      | null =>
        show parseValue (Nat.succ f) ('n' :: 'u' :: 'l' :: 'l' :: rest) = some (Json.null, rest)
        simp only [parseValue]
        rw [skipJWs_cons_nws _ _ (by decide)]
        dsimp only
        rw [if_neg (by decide), if_neg (by decide), if_neg (by decide)]
        rw [show trueTag.isPrefixOf ('n' :: 'u' :: 'l' :: 'l' :: rest) = false from
          isPrefixOf_cons_false 't' 'n' _ _ (by decide)]
        rw [show falseTag.isPrefixOf ('n' :: 'u' :: 'l' :: 'l' :: rest) = false from
          isPrefixOf_cons_false 'f' 'n' _ _ (by decide)]
        rw [show nullTag.isPrefixOf ('n' :: 'u' :: 'l' :: 'l' :: rest) = true from by
          simp [nullTag, List.isPrefixOf]]
        simp only [Bool.false_eq_true, if_false, if_true]
        rfl
      | bool b =>
        cases b with
        | true =>
          show parseValue (Nat.succ f) ('t' :: 'r' :: 'u' :: 'e' :: rest) = some (Json.bool true, rest)
          simp only [parseValue]
          rw [skipJWs_cons_nws _ _ (by decide)]
          dsimp only
          rw [if_neg (by decide), if_neg (by decide), if_neg (by decide)]
          rw [show trueTag.isPrefixOf ('t' :: 'r' :: 'u' :: 'e' :: rest) = true from by
            simp [trueTag, List.isPrefixOf]]
          simp only [if_true]
          rfl
        | false =>
          show parseValue (Nat.succ f) ('f' :: 'a' :: 'l' :: 's' :: 'e' :: rest) =
            some (Json.bool false, rest)
          simp only [parseValue]
          rw [skipJWs_cons_nws _ _ (by decide)]
          dsimp only
          rw [if_neg (by decide), if_neg (by decide), if_neg (by decide)]
          rw [show trueTag.isPrefixOf ('f' :: 'a' :: 'l' :: 's' :: 'e' :: rest) = false from
            isPrefixOf_cons_false 't' 'f' _ _ (by decide)]
          rw [show falseTag.isPrefixOf ('f' :: 'a' :: 'l' :: 's' :: 'e' :: rest) = true from by
            simp [falseTag, List.isPrefixOf]]
          simp only [Bool.false_eq_true, if_false, if_true]
          rfl
      | num i =>
        obtain ⟨c, t2, hct, hd⟩ := printInt_head i
        have hconds : isJsonWs c = false ∧ ¬ c = lbrace ∧ ¬ c = '[' ∧ ¬ c = '"' ∧
            ¬ c = 't' ∧ ¬ c = 'f' ∧ ¬ c = 'n' := by
          rcases hd with hd | rfl
          · have h := digit_conds c hd
            exact ⟨h.1, h.2.1, h.2.2.1, h.2.2.2.1, h.2.2.2.2.1, h.2.2.2.2.2.1, h.2.2.2.2.2.2.1⟩
          · exact ⟨by decide, by decide, by decide, by decide, by decide, by decide, by decide⟩
        rw [show Json.stringify (Json.num i) ++ rest = c :: (t2 ++ rest) from by
          rw [show Json.stringify (Json.num i) = printInt i from rfl, hct]
          rfl]
        rw [parseValue_num_token f c (t2 ++ rest) hconds.1 hconds.2.1 hconds.2.2.1
          hconds.2.2.2.1 hconds.2.2.2.2.1 hconds.2.2.2.2.2.1 hconds.2.2.2.2.2.2]
        rw [show c :: (t2 ++ rest) = printInt i ++ rest from by rw [hct]; rfl]
        rw [parseIntTok_printInt i rest (sepOk_digit rest hsep)]
        rfl
      | str s =>
        show parseValue (Nat.succ f) ('"' :: ((escapeStr s ++ ['"']) ++ rest)) =
          some (Json.str s, rest)
        rw [List.append_assoc]
        simp only [List.singleton_append]
        simp only [parseValue]
        rw [skipJWs_cons_nws _ _ (by decide)]
        dsimp only
        rw [if_neg (by decide), if_neg (by decide), if_pos rfl]
        rw [parseStringBody_escape s _ rest (by
          have := escapeStr_length_ge s
          simp only [List.length_append, List.length_cons]
          omega)]
        rfl
      | arr es =>
        cases es with
        | nil =>
          show parseValue (Nat.succ f) ('[' :: ']' :: rest) = some (Json.arr [], rest)
          simp only [parseValue]
          rw [skipJWs_cons_nws _ _ (by decide)]
          dsimp only
          rw [if_neg (by decide), if_pos rfl]
          rw [skipJWs_cons_nws _ _ (by decide)]
          dsimp only
          rw [if_pos rfl]
        | cons v es2 =>
          obtain ⟨c, t2, hct, hws, hnb⟩ := stringify_head v
          have hhead : ∃ u, stringifyElems (v :: es2) = c :: u := by
            cases es2 with
            | nil => exact ⟨t2, by simp only [stringifyElems]; rw [hct]⟩
            | cons w es3 =>
              refine ⟨t2 ++ ',' :: stringifyElems (w :: es3), ?_⟩
              simp only [stringifyElems]
              rw [hct]
              rfl
          obtain ⟨u, hu⟩ := hhead
          show parseValue (Nat.succ f)
            (('[' :: (stringifyElems (v :: es2) ++ [']'])) ++ rest) = _
          rw [List.cons_append, List.append_assoc]
          simp only [List.singleton_append]
          simp only [parseValue]
          rw [skipJWs_cons_nws _ _ (by decide)]
          dsimp only
          rw [if_neg (by decide), if_pos rfl]
          rw [hu, List.cons_append, skipJWs_cons_nws _ _ hws]
          dsimp only
          rw [if_neg hnb]
          rw [← List.cons_append, ← hu]
          have hfe : fuelSizeE (v :: es2) ≤ f := by
            have e : fuelSizeV (Json.arr (v :: es2)) = 1 + fuelSizeE (v :: es2) := rfl
            omega
          rw [ihE (v :: es2) rest (by simp) hfe]
          rfl
      | obj ms =>
        cases ms with
        | nil =>
          show parseValue (Nat.succ f) (lbrace :: rbrace :: rest) = some (Json.obj [], rest)
          simp only [parseValue]
          rw [skipJWs_cons_nws _ _ (by decide)]
          dsimp only
          rw [if_pos rfl]
          rw [skipJWs_cons_nws _ _ (by decide)]
          dsimp only
          rw [if_pos rfl]
        | cons kv ms2 =>
          obtain ⟨k, v⟩ := kv
          obtain ⟨u, hu⟩ := stringifyMembers_head k v ms2
          show parseValue (Nat.succ f)
            ((lbrace :: (stringifyMembers ((k, v) :: ms2) ++ [rbrace])) ++ rest) = _
          rw [List.cons_append, List.append_assoc]
          simp only [List.singleton_append]
          simp only [parseValue]
          rw [skipJWs_cons_nws _ _ (by decide)]
          dsimp only
          rw [if_pos rfl]
          rw [hu, List.cons_append, skipJWs_cons_nws _ _ (by decide)]
          dsimp only
          rw [if_neg (by decide)]
          rw [← List.cons_append, ← hu]
          have hfm : fuelSizeM ((k, v) :: ms2) ≤ f := by
            have e : fuelSizeV (Json.obj ((k, v) :: ms2)) = 1 + fuelSizeM ((k, v) :: ms2) := rfl
            omega
          rw [ihM ((k, v) :: ms2) rest (by simp) hfm]
          rfl
    · intro ms rest hne hf
      cases ms with
      | nil => exact absurd rfl hne
      | cons kv ms2 =>
        obtain ⟨k, v⟩ := kv
        have hfv : fuelSizeV v ≤ f ∧ fuelSizeM ms2 ≤ f := by
          have e : fuelSizeM ((k, v) :: ms2) = 1 + fuelSizeV v + fuelSizeM ms2 := rfl
          omega
        cases ms2 with
        | nil =>
          show parseMembers (Nat.succ f)
            (('"' :: (escapeStr k ++ '"' :: ':' :: Json.stringify v)) ++ rbrace :: rest) =
            some ([(k, v)], rest)
          rw [List.cons_append, List.append_assoc]
          simp only [List.cons_append]
          simp only [parseMembers]
          rw [if_pos trivial]
          rw [parseStringBody_escape k _ _ (by
            have := escapeStr_length_ge k
            simp only [List.length_append, List.length_cons]
            omega)]
          dsimp only
          rw [skipJWs_cons_nws _ _ (by decide)]
          dsimp only
          rw [if_pos rfl]
          rw [ihV v (rbrace :: rest) hfv.1 (Or.inr (Or.inl rfl))]
          dsimp only
          rw [skipJWs_cons_nws _ _ (by decide)]
          dsimp only
          rw [if_neg (by decide), if_pos rfl]
        | cons m ms3 =>
          obtain ⟨u, hu⟩ := stringifyMembers_head m.1 m.2 ms3
          rw [show ((m.1, m.2) : List Char × Json) = m from rfl] at hu
          show parseMembers (Nat.succ f)
            ((('"' :: (escapeStr k ++ '"' :: ':' :: Json.stringify v)) ++
              ',' :: stringifyMembers (m :: ms3)) ++ rbrace :: rest) =
            some ((k, v) :: m :: ms3, rest)
          simp only [List.cons_append, List.append_assoc]
          simp only [parseMembers]
          rw [if_pos trivial]
          rw [parseStringBody_escape k _ _ (by
            have := escapeStr_length_ge k
            simp only [List.length_append, List.length_cons]
            omega)]
          dsimp only
          rw [skipJWs_cons_nws _ _ (by decide)]
          dsimp only
          rw [if_pos rfl]
          rw [ihV v (',' :: (stringifyMembers (m :: ms3) ++ rbrace :: rest)) hfv.1 (Or.inl rfl)]
          dsimp only
          rw [skipJWs_cons_nws _ _ (by decide)]
          dsimp only
          rw [if_pos rfl]
          rw [hu, List.cons_append, skipJWs_cons_nws _ _ (by decide),
            ← List.cons_append, ← hu]
          rw [ihM (m :: ms3) rest (by simp) hfv.2]
          rfl
    · intro es rest hne hf
      cases es with
      | nil => exact absurd rfl hne
      | cons v es2 =>
        have hfv : fuelSizeV v ≤ f ∧ fuelSizeE es2 ≤ f := by
          have e : fuelSizeE (v :: es2) = 1 + fuelSizeV v + fuelSizeE es2 := rfl
          omega
        cases es2 with
        | nil =>
          show parseElems (Nat.succ f) (Json.stringify v ++ ']' :: rest) = some ([v], rest)
          simp only [parseElems]
          rw [ihV v (']' :: rest) hfv.1 (Or.inr (Or.inr rfl))]
          dsimp only
          rw [skipJWs_cons_nws _ _ (by decide)]
          dsimp only
          rw [if_neg (by decide), if_pos rfl]
        | cons w es3 =>
          show parseElems (Nat.succ f)
            ((Json.stringify v ++ ',' :: stringifyElems (w :: es3)) ++ ']' :: rest) =
            some (v :: w :: es3, rest)
          rw [List.append_assoc]
          simp only [List.cons_append]
          simp only [parseElems]
          rw [ihV v (',' :: (stringifyElems (w :: es3) ++ ']' :: rest)) hfv.1 (Or.inl rfl)]
          dsimp only
          rw [skipJWs_cons_nws _ _ (by decide)]
          dsimp only
          rw [if_pos rfl]
          rw [ihE (w :: es3) rest (by simp) hfv.2]
          rfl

/-- The fuel a value needs is bounded by the length of its rendering. -/
theorem fuelSize_le_length (f : Nat) :
    (∀ J : Json, fuelSizeV J ≤ f → fuelSizeV J ≤ (Json.stringify J).length) ∧
    (∀ ms : List (List Char × Json), fuelSizeM ms ≤ f →
      fuelSizeM ms ≤ (stringifyMembers ms).length + 1) ∧
    (∀ es : List Json, fuelSizeE es ≤ f →
      fuelSizeE es ≤ (stringifyElems es).length + 1) := by
  induction f with
  | zero =>
    refine ⟨?_, ?_, ?_⟩
    · intro J h
      have := fuelSizeV_pos J
      omega
    · intro ms h
      cases ms with
      | nil => simp [fuelSizeM]
      | cons kv ms =>
        obtain ⟨k, v⟩ := kv
        have e : fuelSizeM ((k, v) :: ms) = 1 + fuelSizeV v + fuelSizeM ms := rfl
        have := fuelSizeV_pos v
        omega
    · intro es h
      cases es with
      | nil => simp [fuelSizeE]
      | cons v es =>
        have e : fuelSizeE (v :: es) = 1 + fuelSizeV v + fuelSizeE es := rfl
        have := fuelSizeV_pos v
        omega
  | succ f ih =>
    obtain ⟨ihV, ihM, ihE⟩ := ih
    refine ⟨?_, ?_, ?_⟩
    · intro J hf
      cases J with
      | null => simp [fuelSizeV, Json.stringify, nullTag]
      | bool b => cases b <;> simp [fuelSizeV, Json.stringify, trueTag, falseTag]
      | num i =>
        obtain ⟨c, t2, hct, _⟩ := printInt_head i
        have : Json.stringify (Json.num i) = c :: t2 := hct
        simp [fuelSizeV, this]
      | str s =>
        have e : fuelSizeV (Json.str s) = 1 := rfl
        have : (Json.stringify (Json.str s)).length = (escapeStr s).length + 2 := by
          show ('"' :: (escapeStr s ++ ['"'])).length = _
          simp
        omega
      | arr es =>
        have e : fuelSizeV (Json.arr es) = 1 + fuelSizeE es := rfl
        have el : (Json.stringify (Json.arr es)).length = (stringifyElems es).length + 2 := by
          show ('[' :: (stringifyElems es ++ [']'])).length = _
          simp
        have hes : fuelSizeE es ≤ (stringifyElems es).length + 1 := ihE es (by omega)
        omega
      | obj ms =>
        have e : fuelSizeV (Json.obj ms) = 1 + fuelSizeM ms := rfl
        have el : (Json.stringify (Json.obj ms)).length = (stringifyMembers ms).length + 2 := by
          show (lbrace :: (stringifyMembers ms ++ [rbrace])).length = _
          simp
        have hms : fuelSizeM ms ≤ (stringifyMembers ms).length + 1 := ihM ms (by omega)
        omega
    · intro ms hf
      cases ms with
      | nil => simp [fuelSizeM]
      | cons kv ms2 =>
        obtain ⟨k, v⟩ := kv
        have e : fuelSizeM ((k, v) :: ms2) = 1 + fuelSizeV v + fuelSizeM ms2 := rfl
        have hv : fuelSizeV v ≤ (Json.stringify v).length := ihV v (by omega)
        cases ms2 with
        | nil =>
          have el : (stringifyMembers [(k, v)]).length =
              (escapeStr k).length + (Json.stringify v).length + 3 := by
            show ('"' :: (escapeStr k ++ '"' :: ':' :: Json.stringify v)).length = _
            simp
            omega
          have e2 : fuelSizeM ([] : List (List Char × Json)) = 0 := rfl
          omega
        | cons m ms3 =>
          have hm : fuelSizeM (m :: ms3) ≤ (stringifyMembers (m :: ms3)).length + 1 :=
            ihM (m :: ms3) (by omega)
          have el : (stringifyMembers ((k, v) :: m :: ms3)).length =
              (escapeStr k).length + (Json.stringify v).length +
                (stringifyMembers (m :: ms3)).length + 4 := by
            show (('"' :: (escapeStr k ++ '"' :: ':' :: Json.stringify v)) ++
              ',' :: stringifyMembers (m :: ms3)).length = _
            simp
            omega
          omega
    · intro es hf
      cases es with
      | nil => simp [fuelSizeE]
      | cons v es2 =>
        have e : fuelSizeE (v :: es2) = 1 + fuelSizeV v + fuelSizeE es2 := rfl
        have hv : fuelSizeV v ≤ (Json.stringify v).length := ihV v (by omega)
        cases es2 with
        | nil =>
          have el : (stringifyElems [v]).length = (Json.stringify v).length := rfl
          have e2 : fuelSizeE ([] : List Json) = 0 := rfl
          omega
        | cons w es3 =>
          have hw : fuelSizeE (w :: es3) ≤ (stringifyElems (w :: es3)).length + 1 :=
            ihE (w :: es3) (by omega)
          have el : (stringifyElems (v :: w :: es3)).length =
              (Json.stringify v).length + (stringifyElems (w :: es3)).length + 1 := by
            show (Json.stringify v ++ ',' :: stringifyElems (w :: es3)).length = _
            simp
            omega
          omega

/-- The parse of a printed value gives the value back: the model of
`JSON.parse` undoes the model of `JSON.stringify`. -/
theorem parse_stringify (J : Json) : Json.parse (Json.stringify J) = some J := by
  have hlen : fuelSizeV J ≤ (Json.stringify J).length :=
    (fuelSize_le_length (fuelSizeV J)).1 J le_rfl
  have h := (roundtrip ((Json.stringify J).length + 1)).1 J [] (by omega) trivial
  rw [List.append_nil] at h
  unfold Json.parse
  rw [h]
  rfl

/-! ### The two regular expressions of `extractJson` -/

/-- The whitespace class `\s` of JavaScript regular expressions. -/
def isRegexWs (c : Char) : Bool :=
  c = ' ' || c = '\t' || c = '\n' || c = '\r' ||
  c = Char.ofNat 11 || c = Char.ofNat 12 ||
  c = Char.ofNat 0xa0 || c = Char.ofNat 0x1680 ||
  (0x2000 ≤ c.toNat && c.toNat ≤ 0x200a) ||
  c = Char.ofNat 0x2028 || c = Char.ofNat 0x2029 ||
  c = Char.ofNat 0x202f || c = Char.ofNat 0x205f ||
  c = Char.ofNat 0x3000 || c = Char.ofNat 0xfeff

/-- Skip a maximal run of `\s` characters (the deterministic behaviour of
a greedy `\s*` whose continuation cannot start with whitespace). -/
def skipRWs (l : List Char) : List Char := l.dropWhile isRegexWs

/-- Three backticks: the fence delimiter. -/
def ticks : List Char := [btick, btick, btick]

/-- The characters of the optional `json` tag after the opening fence. -/
def jsonTag : List Char := ['j', 's', 'o', 'n']

/-- Does `\s*` followed by a closing fence match at the start of `l`?
This is the continuation test the lazy body capture performs at each
candidate closing brace. -/
def hasClosingFence (l : List Char) : Bool := ticks.isPrefixOf (skipRWs l)

/-- The lazy capture `(\x7b[\s\S]*?\x7d)` of the fenced regex: scan for the
first closing brace whose continuation `\s*` + three backticks matches, and
return the capture accumulated so far (in `acc`, reversed, the opening
brace included). -/
def lazyScan : List Char → List Char → Option (List Char)
  | _, [] => none
  | acc, c :: t =>
    if c = rbrace ∧ hasClosingFence t then some (acc.reverse ++ [rbrace])
    else lazyScan (c :: acc) t

/-- Consume the optional `json` tag after the opening fence.  (When the
tag is present the literal `json` is consumed; the backtracking
alternative of not consuming it can never succeed, because `\s*` followed
by an opening brace cannot match text that starts with the letter `j`.) -/
def dropTag (l : List Char) : List Char :=
  if jsonTag.isPrefixOf l then l.drop 4 else l

/-- Attempt the fenced regex at the current position: an opening fence,
an optional `json` tag, greedy `\s*`, then the lazy brace capture. -/
def matchCapture (l : List Char) : Option (List Char) :=
  if ticks.isPrefixOf l then
    match skipRWs (dropTag (l.drop 3)) with
    | [] => none
    | c :: t => if c = lbrace then lazyScan [lbrace] t else none
  else none

/-- Model of `text.match(/\x60\x60\x60(?:json)?\s*(\x7b[\s\S]*?\x7d)\s*\x60\x60\x60/)`:
the capture group of the leftmost match. -/
def findFenced : List Char → Option (List Char)
  | [] => none
  | c :: t =>
    match matchCapture (c :: t) with
    | some cap => some cap
    | none => findFenced t

/-- Drop characters up to (and not including) the first opening brace. -/
def dropToOpen : List Char → Option (List Char)
  | [] => none
  | c :: t => if c = lbrace then some (c :: t) else dropToOpen t

/-- Truncate just after the last closing brace; `none` when there is no
closing brace at all. -/
def truncAtLastClose (l : List Char) : Option (List Char) :=
  match l.reverse.dropWhile (fun c => !(c = rbrace)) with
  | [] => none
  | r => some r.reverse

/-- Model of `text.match(/(\x7b[\s\S]*\x7d)/)`: the greedy span from the
first opening brace to the last closing brace (which must lie strictly
after it). -/
def fallbackMatch (l : List Char) : Option (List Char) :=
  match dropToOpen l with
  | none => none
  | some l1 =>
    match l1 with
    | [] => none
    | c :: t =>
      match truncAtLastClose t with
      | none => none
      | some u => some (c :: u)

/-! ### `extractJson` itself -/

/-- The one kind of exception the body of `extractJson` can raise in the
model: `JSON.parse` throwing a `SyntaxError`. -/
inductive JsError where
  | parseError : JsError
deriving DecidableEq

/-- The body of `extractJson` (everything inside the outer `try`), with the
exception flow explicit.  The fenced-candidate parse is not protected, so
its failure is an `Except.error`; the fallback parse sits in its own
`try/catch` whose catch block is empty, so its failure yields `.ok none`. -/
def extractJsonBody (text : List Char) : Except JsError (Option Json) :=
  match findFenced text with
  | some cap =>
    match Json.parse cap with
    | some v => .ok (some v)
    | none => .error .parseError
  | none =>
    match fallbackMatch text with
    | some cap =>
      match Json.parse cap with
      | some v => .ok (some v)
      | none => .ok none
    | none => .ok none

/-- Model of `extractJson` (lines 19-50 of the source): the body wrapped in
the outer `try/catch`, whose catch branch logs and returns `null`. -/
def extractJson (text : String) : Option Json :=
  match extractJsonBody text.data with
  | .ok r => r
  | .error _ => none

/-! ### Helper lemmas -/

/-- A successful fenced candidate parse is returned immediately. -/
theorem extract_of_fenced_parse (text : String) (s : List Char) (v : Json)
    (h1 : findFenced text.data = some s) (h2 : Json.parse s = some v) :
    extractJson text = some v := by
  simp [extractJson, extractJsonBody, h1, h2]

/-- `skipRWs` keeps a suffix of its input. -/
theorem skipRWs_sublist (l : List Char) : List.Sublist (skipRWs l) l := by
  unfold skipRWs
  exact List.dropWhile_sublist isRegexWs

/-- `dropTag` keeps a suffix of its input. -/
theorem dropTag_sublist (l : List Char) : List.Sublist (dropTag l) l := by
  unfold dropTag
  split
  · exact List.drop_sublist 4 l
  · exact List.Sublist.refl l

/-- The fenced regex cannot match text with no opening brace. -/
theorem matchCapture_eq_none (l : List Char) (h : lbrace ∉ l) :
    matchCapture l = none := by
  unfold matchCapture
  split
  · cases hs : skipRWs (dropTag (l.drop 3)) with
    | nil => rfl
    | cons c t =>
      have hc : c ∈ l := by
        have h1 : c ∈ skipRWs (dropTag (l.drop 3)) := by rw [hs]; exact List.mem_cons_self c t
        have h2 := (skipRWs_sublist (dropTag (l.drop 3))).subset h1
        have h3 := (dropTag_sublist (l.drop 3)).subset h2
        exact (List.drop_sublist 3 l).subset h3
      have : ¬ c = lbrace := fun hh => h (hh ▸ hc)
      simp [this]
  · rfl

/-- `findFenced` finds nothing in text with no opening brace. -/
theorem findFenced_eq_none (l : List Char) (h : lbrace ∉ l) :
    findFenced l = none := by
  induction l with
  | nil => rfl
  | cons c t ih =>
    unfold findFenced
    rw [matchCapture_eq_none _ h]
    exact ih (fun hm => h (List.mem_cons_of_mem c hm))

/-- `dropToOpen` finds nothing in text with no opening brace. -/
theorem dropToOpen_eq_none (l : List Char) (h : lbrace ∉ l) :
    dropToOpen l = none := by
  induction l with
  | nil => rfl
  | cons c t ih =>
    unfold dropToOpen
    have : ¬ c = lbrace := fun hh => h (hh ▸ List.mem_cons_self c t)
    simp [this]
    exact ih (fun hm => h (List.mem_cons_of_mem c hm))

/-- The fallback regex cannot match text with no opening brace. -/
theorem fallbackMatch_eq_none (l : List Char) (h : lbrace ∉ l) :
    fallbackMatch l = none := by
  unfold fallbackMatch
  rw [dropToOpen_eq_none l h]

/-- Every capture the lazy scan produces extends the accumulator. -/
theorem lazyScan_shape (rest : List Char) : ∀ acc cap, lazyScan acc rest = some cap →
    ∃ u, cap = acc.reverse ++ u := by
  induction rest with
  | nil => intro acc cap h; simp [lazyScan] at h
  | cons c t ih =>
    intro acc cap h
    unfold lazyScan at h
    split at h
    · exact ⟨[rbrace], (Option.some.inj h).symm⟩
    · obtain ⟨u, hu⟩ := ih (c :: acc) cap h
      exact ⟨c :: u, by simpa [List.append_assoc] using hu⟩

/-- Every fenced capture starts with an opening brace. -/
theorem matchCapture_shape (l cap : List Char) (h : matchCapture l = some cap) :
    ∃ u, cap = lbrace :: u := by
  unfold matchCapture at h
  split at h
  · split at h
    · exact absurd h (by simp)
    · split at h
      · obtain ⟨u, hu⟩ := lazyScan_shape _ _ _ h
        exact ⟨u, by simpa using hu⟩
      · exact absurd h (by simp)
  · exact absurd h (by simp)

/-- Every capture `findFenced` returns starts with an opening brace. -/
theorem findFenced_shape (l : List Char) : ∀ cap, findFenced l = some cap →
    ∃ u, cap = lbrace :: u := by
  induction l with
  | nil => intro cap h; simp [findFenced] at h
  | cons c t ih =>
    intro cap h
    unfold findFenced at h
    cases hm : matchCapture (c :: t) with
    | some cap2 => rw [hm] at h; exact matchCapture_shape _ _ (hm.trans (congrArg some (Option.some.inj h)))
    | none => rw [hm] at h; exact ih cap h

/-- `dropToOpen` returns a suffix starting with the opening brace. -/
theorem dropToOpen_shape (l : List Char) : ∀ l1, dropToOpen l = some l1 →
    ∃ t, l1 = lbrace :: t := by
  induction l with
  | nil => intro l1 h; simp [dropToOpen] at h
  | cons c t ih =>
    intro l1 h
    unfold dropToOpen at h
    split at h
    · rename_i hc
      exact ⟨t, by rw [← Option.some.inj h, hc]⟩
    · exact ih l1 h

/-- Every capture `fallbackMatch` returns starts with an opening brace. -/
theorem fallbackMatch_shape (l cap : List Char) (h : fallbackMatch l = some cap) :
    ∃ u, cap = lbrace :: u := by
  unfold fallbackMatch at h
  cases hd : dropToOpen l with
  | none => rw [hd] at h; exact absurd h (by simp)
  | some l1 =>
    rw [hd] at h
    obtain ⟨t, rfl⟩ := dropToOpen_shape _ _ hd
    dsimp only at h
    cases ht : truncAtLastClose t with
    | none => rw [ht] at h; exact absurd h (by simp)
    | some u => rw [ht] at h; exact ⟨u, (Option.some.inj h).symm⟩

/-- One-step analysis: a `parseValue` run on input that starts with an
opening brace can only produce an object. -/
theorem parseValue_head_obj (f : Nat) (t : List Char) (w : Json) (r : List Char)
    (h : parseValue (Nat.succ f) (lbrace :: t) = some (w, r)) : w.isObj = true := by
  unfold parseValue at h
  rw [show skipJWs (lbrace :: t) = lbrace :: t from by
    unfold skipJWs; rw [List.dropWhile_cons_of_neg (by decide)]] at h
  dsimp only at h
  rw [if_pos rfl] at h
  split at h
  · exact absurd h (by simp)
  · split at h
    · cases h; rfl
    · cases hm : parseMembers f _ with
      | none => rw [hm] at h; exact absurd h (by simp)
      | some q =>
        rw [hm] at h
        dsimp only [Option.map] at h
        cases Option.some.inj h
        rfl

/-- A parse of text that starts with an opening brace can only produce an
object. -/
theorem parse_head_obj (t : List Char) (v : Json)
    (h : Json.parse (lbrace :: t) = some v) : v.isObj = true := by
  unfold Json.parse at h
  cases hp : parseValue ((lbrace :: t).length + 1) (lbrace :: t) with
  | none => rw [hp] at h; exact absurd h (by simp)
  | some p =>
    rw [hp] at h
    obtain ⟨w, r⟩ := p
    dsimp only at h
    have hw : w.isObj = true := parseValue_head_obj (t.length + 1) t w r hp
    split at h
    · cases h; exact hw
    · exact absurd h (by simp)

/-! ### The fenced regex on a fence-wrapped serialized object -/

/-- The characters of the opening fence `\x60\x60\x60json` followed by a
newline, as the round-trip claim builds it. -/
def fenceOpen : List Char :=
  btick :: btick :: btick :: 'j' :: 's' :: 'o' :: 'n' :: ['\n']

/-- The characters of a newline followed by the closing fence. -/
def fenceClose : List Char := '\n' :: btick :: btick :: btick :: []

/-- Inside the body, no closing brace is followed by whitespace and a
fence, provided the body has no backtick: the first non-whitespace
character after it is a body character or the final closing brace, never a
backtick. -/
theorem hasClosingFence_inner_false (b : List Char) (hb : btick ∉ b) :
    hasClosingFence (b ++ rbrace :: fenceClose) = false := by
  induction b with
  | nil => decide
  | cons c b ih =>
    show hasClosingFence (c :: (b ++ rbrace :: fenceClose)) = false
    unfold hasClosingFence skipRWs
    by_cases hw : isRegexWs c = true
    · rw [List.dropWhile_cons_of_pos (by simp [hw])]
      have := ih (fun hm => hb (List.mem_cons_of_mem c hm))
      unfold hasClosingFence skipRWs at this
      exact this
    · rw [List.dropWhile_cons_of_neg (by simp [hw])]
      have hcb : ¬ btick = c := fun h => hb (h ▸ List.mem_cons_self c b)
      exact isPrefixOf_cons_false btick c _ _ hcb

/-- The lazy capture on a backtick-free body closes exactly at the final
closing brace, right before the closing fence. -/
theorem lazyScan_fenced (mid : List Char) : ∀ acc, btick ∉ mid →
    lazyScan acc (mid ++ rbrace :: fenceClose) =
      some (acc.reverse ++ (mid ++ [rbrace])) := by
  induction mid with
  | nil =>
    intro acc _
    show lazyScan acc (rbrace :: fenceClose) = _
    unfold lazyScan
    rw [if_pos ⟨rfl, by decide⟩]
    simp
  | cons c mid ih =>
    intro acc hbt
    show lazyScan acc (c :: (mid ++ rbrace :: fenceClose)) = _
    unfold lazyScan
    have hcond : ¬ (c = rbrace ∧ hasClosingFence (mid ++ rbrace :: fenceClose) = true) := by
      rintro ⟨_, hf⟩
      rw [hasClosingFence_inner_false mid (fun hm => hbt (List.mem_cons_of_mem c hm))] at hf
      exact Bool.noConfusion hf
    rw [if_neg hcond]
    rw [ih (c :: acc) (fun hm => hbt (List.mem_cons_of_mem c hm))]
    simp

/-- The fenced regex matched at the opening fence of a fence-wrapped
backtick-free object body captures exactly the body. -/
theorem matchCapture_fenced (mid : List Char) (hmid : btick ∉ mid) :
    matchCapture (fenceOpen ++ (lbrace :: (mid ++ [rbrace])) ++ fenceClose) =
      some (lbrace :: (mid ++ [rbrace])) := by
  show matchCapture (btick :: btick :: btick :: 'j' :: 's' :: 'o' :: 'n' :: '\n' ::
    ((lbrace :: (mid ++ [rbrace])) ++ fenceClose)) = _
  unfold matchCapture
  rw [if_pos (show ticks.isPrefixOf _ = true from by simp [ticks, List.isPrefixOf])]
  rw [show (btick :: btick :: btick :: 'j' :: 's' :: 'o' :: 'n' :: '\n' ::
      ((lbrace :: (mid ++ [rbrace])) ++ fenceClose)).drop 3 =
    'j' :: 's' :: 'o' :: 'n' :: '\n' :: ((lbrace :: (mid ++ [rbrace])) ++ fenceClose)
    from rfl]
  rw [show dropTag ('j' :: 's' :: 'o' :: 'n' :: '\n' ::
      ((lbrace :: (mid ++ [rbrace])) ++ fenceClose)) =
    '\n' :: ((lbrace :: (mid ++ [rbrace])) ++ fenceClose) from by
      unfold dropTag
      rw [if_pos (show jsonTag.isPrefixOf _ = true from by simp [jsonTag, List.isPrefixOf])]
      rfl]
  rw [show skipRWs ('\n' :: ((lbrace :: (mid ++ [rbrace])) ++ fenceClose)) =
      lbrace :: ((mid ++ [rbrace]) ++ fenceClose) from by
    rw [List.cons_append]
    unfold skipRWs
    rw [List.dropWhile_cons_of_pos (by decide), List.dropWhile_cons_of_neg (by decide)]]
  dsimp only
  rw [if_pos rfl]
  rw [List.append_assoc]
  simp only [List.singleton_append]
  rw [lazyScan_fenced mid [lbrace] hmid]
  rfl

/-- The leftmost fenced match on a fence-wrapped backtick-free object body
is the one at position zero, so `findFenced` returns the body. -/
theorem findFenced_fenced (mid : List Char) (hmid : btick ∉ mid) :
    findFenced (fenceOpen ++ (lbrace :: (mid ++ [rbrace])) ++ fenceClose) =
      some (lbrace :: (mid ++ [rbrace])) := by
  have hm := matchCapture_fenced mid hmid
  rw [show fenceOpen ++ (lbrace :: (mid ++ [rbrace])) ++ fenceClose =
    btick :: (btick :: btick :: 'j' :: 's' :: 'o' :: 'n' :: '\n' ::
      ((lbrace :: (mid ++ [rbrace])) ++ fenceClose)) from rfl] at hm ⊢
  unfold findFenced
  rw [hm]

/-! ### The claims -/

/-- C4: if the fenced-block search yields a capture and that capture
parses as JSON value `J`, then `extractJson` returns `J` immediately: the
fenced search is primary and its successful parse is the result. -/
theorem fenced_valid_is_returned (text : String) (s : List Char) (J : Json)
    (h1 : findFenced text.data = some s) (h2 : Json.parse s = some J) :
    extractJson text = some J :=
  extract_of_fenced_parse text s J h1 h2

/-- Witness for C4 at a concrete fenced text. -/
theorem fenced_valid_is_returned_witness :
    extractJson "\x60\x60\x60json\n\x7b\"a\":1\x7d\n\x60\x60\x60" =
      some (Json.obj [(['a'], Json.num 1)]) :=
  fenced_valid_is_returned _ ('\x7b' :: '"' :: 'a' :: '"' :: ':' :: '1' :: ['\x7d'])
    (Json.obj [(['a'], Json.num 1)]) (by rfl) (by rfl)

/-- C5: when no fenced candidate matches, `extractJson` is exactly the
greedy first-brace-to-last-brace fallback search followed by a parse whose
failure is swallowed. -/
theorem no_fence_uses_fallback (text : String)
    (h : findFenced text.data = none) :
    extractJson text = (fallbackMatch text.data).bind Json.parse := by
  cases hf : fallbackMatch text.data with
  | none => simp [extractJson, extractJsonBody, h, hf]
  | some cap =>
    cases hp : Json.parse cap with
    | none => simp [extractJson, extractJsonBody, h, hf, hp]
    | some v => simp [extractJson, extractJsonBody, h, hf, hp]

/-- Witness for C5: the spec's concrete example, fenceless text with one
embedded object. -/
theorem no_fence_uses_fallback_witness :
    findFenced ("prefix \x7b\"a\":1\x7d suffix" : String).data = none ∧
    extractJson "prefix \x7b\"a\":1\x7d suffix" = some (Json.obj [(['a'], Json.num 1)]) :=
  ⟨by rfl, (no_fence_uses_fallback "prefix \x7b\"a\":1\x7d suffix" (by rfl)).trans (by rfl)⟩

/-- C6: a fallback candidate that fails to parse is swallowed by the inner
`try/catch`: no exception escapes the body and the absence signal is
returned. -/
theorem fallback_failure_swallowed (text : String) (s : List Char)
    (h1 : findFenced text.data = none) (h2 : fallbackMatch text.data = some s)
    (h3 : Json.parse s = none) :
    extractJsonBody text.data = Except.ok none ∧ extractJson text = none := by
  refine ⟨?_, ?_⟩
  · simp [extractJsonBody, h1, h2, h3]
  · simp [extractJson, extractJsonBody, h1, h2, h3]

/-- Witness for C6: the spec's concrete example whose greedy span is not
valid JSON. -/
theorem fallback_failure_swallowed_witness :
    findFenced ("\x7ba:1\x7d and \x7b\"b\":2\x7d" : String).data = none ∧
    fallbackMatch ("\x7ba:1\x7d and \x7b\"b\":2\x7d" : String).data =
      some ("\x7ba:1\x7d and \x7b\"b\":2\x7d" : String).data ∧
    extractJson "\x7ba:1\x7d and \x7b\"b\":2\x7d" = none :=
  ⟨by rfl, by rfl,
    (fallback_failure_swallowed "\x7ba:1\x7d and \x7b\"b\":2\x7d" _ (by rfl) (by rfl) (by rfl)).2⟩

/-- C7: when the fenced capture fails to parse, `extractJson` returns
`null` without attempting the fallback search — even when the fallback
would have succeeded on the same text. -/
theorem fenced_failure_skips_fallback (text : String) (s : List Char) (v : Json)
    (h1 : findFenced text.data = some s) (h2 : Json.parse s = none)
    (_h3 : (fallbackMatch text.data).bind Json.parse = some v) :
    extractJson text = none := by
  simp [extractJson, extractJsonBody, h1, h2]

/-- Witness for C7: a text whose fenced capture is invalid while the whole
text is itself a valid JSON object the fallback would have found. -/
theorem fenced_failure_skips_fallback_witness :
    findFenced ("\x7b\"x\": \"\x60\x60\x60 \x7ba:1\x7d \x60\x60\x60\"\x7d" : String).data =
      some ('\x7b' :: 'a' :: ':' :: '1' :: ['\x7d']) ∧
    (fallbackMatch ("\x7b\"x\": \"\x60\x60\x60 \x7ba:1\x7d \x60\x60\x60\"\x7d" : String).data).bind
      Json.parse =
      some (Json.obj [(['x'], Json.str ("\x60\x60\x60 \x7ba:1\x7d \x60\x60\x60" : String).data)]) ∧
    extractJson "\x7b\"x\": \"\x60\x60\x60 \x7ba:1\x7d \x60\x60\x60\"\x7d" = none :=
  ⟨by rfl, by rfl,
    fenced_failure_skips_fallback _ ('\x7b' :: 'a' :: ':' :: '1' :: ['\x7d'])
      (Json.obj [(['x'], Json.str ("\x60\x60\x60 \x7ba:1\x7d \x60\x60\x60" : String).data)])
      (by rfl) (by rfl) (by rfl)⟩

/-- C1 (corrected): when the fenced capture fails to parse, the
`JSON.parse` exception escapes the body — the fallback search is never
reached — but it is then caught by the outer `try/catch` of `extractJson`,
which returns `null`.  The caller receives the absence signal, not a
propagated internal error. -/
theorem fenced_failure_caught (text : String) (s : List Char)
    (h1 : findFenced text.data = some s) (h2 : Json.parse s = none) :
    extractJsonBody text.data = Except.error JsError.parseError ∧
    extractJson text = none := by
  refine ⟨?_, ?_⟩
  · simp [extractJsonBody, h1, h2]
  · simp [extractJson, extractJsonBody, h1, h2]

/-- Witness for the corrected C1 at the spec's own example text. -/
theorem fenced_failure_caught_witness :
    extractJsonBody ("\x60\x60\x60json\n\x7ba:1\x7d\n\x60\x60\x60" : String).data =
      Except.error JsError.parseError ∧
    extractJson "\x60\x60\x60json\n\x7ba:1\x7d\n\x60\x60\x60" = none :=
  fenced_failure_caught "\x60\x60\x60json\n\x7ba:1\x7d\n\x60\x60\x60"
    ('\x7b' :: 'a' :: ':' :: '1' :: ['\x7d']) (by rfl) (by rfl)

/-- Counterexample to C1 as stated: on the spec's example of a fenced
block with invalid JSON, the fenced candidate is found, its parse fails,
and yet `extractJson` returns the absence signal `null` — the parse error
does not propagate to the caller. -/
theorem fenced_failure_not_propagated :
    findFenced ("\x60\x60\x60json\n\x7ba:1\x7d\n\x60\x60\x60" : String).data =
      some ('\x7b' :: 'a' :: ':' :: '1' :: ['\x7d']) ∧
    Json.parse ('\x7b' :: 'a' :: ':' :: '1' :: ['\x7d']) = none ∧
    extractJson "\x60\x60\x60json\n\x7ba:1\x7d\n\x60\x60\x60" = none :=
  ⟨by rfl, by rfl, by rfl⟩

/-- C2: `extractJson` is total at its public boundary: every call returns
either a parsed value or `null`, and any exception the body raises is
caught by the outer `try/catch`, which returns `null`. -/
theorem extractJson_total (text : String) :
    (extractJson text = none ∨ ∃ v, extractJson text = some v) ∧
    (∀ e, extractJsonBody text.data = Except.error e → extractJson text = none) := by
  refine ⟨?_, ?_⟩
  · cases h : extractJson text with
    | none => exact Or.inl rfl
    | some v => exact Or.inr ⟨v, rfl⟩
  · intro e he
    simp [extractJson, he]

/-- Witness for C2: the body raises on this input and the public function
still returns `null`. -/
theorem extractJson_total_witness :
    extractJsonBody ("\x60\x60\x60\n\x7bbad\x7d\n\x60\x60\x60" : String).data =
      Except.error JsError.parseError ∧
    extractJson "\x60\x60\x60\n\x7bbad\x7d\n\x60\x60\x60" = none :=
  ⟨by rfl, (extractJson_total "\x60\x60\x60\n\x7bbad\x7d\n\x60\x60\x60").2
    JsError.parseError (by rfl)⟩

/-- C8: text with no brace characters at all yields the absence signal:
neither the fenced pattern nor the fallback pattern can match. -/
theorem no_braces_gives_none (text : String)
    (h1 : lbrace ∉ text.data) (_h2 : rbrace ∉ text.data) :
    extractJson text = none := by
  simp [extractJson, extractJsonBody, findFenced_eq_none _ h1, fallbackMatch_eq_none _ h1]

/-- Witness for C8. -/
theorem no_braces_gives_none_witness :
    lbrace ∉ ("hello world" : String).data ∧
    extractJson "hello world" = none :=
  ⟨by decide, no_braces_gives_none "hello world" (by decide) (by decide)⟩

/-- C9: `extractJson` never returns a non-object top-level value: both
regexes only produce candidate spans that start with an opening brace, and
a parse of such a span can only succeed with an object. -/
theorem extract_only_objects (text : String) (v : Json)
    (h : extractJson text = some v) : v.isObj = true := by
  unfold extractJson extractJsonBody at h
  cases hf : findFenced text.data with
  | some cap =>
    rw [hf] at h
    dsimp only at h
    cases hp : Json.parse cap with
    | none => rw [hp] at h; exact absurd h (by simp)
    | some w =>
      rw [hp] at h
      dsimp only at h
      obtain ⟨u, rfl⟩ := findFenced_shape _ _ hf
      cases h
      exact parse_head_obj _ _ hp
  | none =>
    rw [hf] at h
    dsimp only at h
    cases hfb : fallbackMatch text.data with
    | none => rw [hfb] at h; exact absurd h (by simp)
    | some cap =>
      rw [hfb] at h
      dsimp only at h
      cases hp : Json.parse cap with
      | none => rw [hp] at h; exact absurd h (by simp)
      | some w =>
        rw [hp] at h
        dsimp only at h
        obtain ⟨u, rfl⟩ := fallbackMatch_shape _ _ hfb
        cases h
        exact parse_head_obj _ _ hp

/-- Witness for C9. -/
theorem extract_only_objects_witness :
    (Json.obj [(['a'], Json.num 1)]).isObj = true :=
  extract_only_objects "\x7b\"a\":1\x7d" (Json.obj [(['a'], Json.num 1)]) (by rfl)

/-- C10: `extractJson` is deterministic and stateless: it is a pure
function of its input, so two calls on the same input are identical. -/
theorem extractJson_deterministic (text : String) :
    extractJson text = extractJson text := rfl

/-- C3 (corrected): the round trip through a fenced block holds for every
JSON object whose serialization contains no backtick: `extractJson` on
the fence-wrapped serialization returns the object itself. -/
theorem roundtrip_extract (J : Json) (hobj : J.isObj = true)
    (hbt : btick ∉ Json.stringify J) :
    extractJson (String.mk (("\x60\x60\x60json\n" : String).data ++
      Json.stringify J ++ ("\n\x60\x60\x60" : String).data)) = some J := by
  cases J with
  | null => exact absurd hobj (by decide)
  | bool b => cases b <;> exact absurd hobj (by decide)
  | num i => exact Bool.noConfusion hobj
  | str s => exact Bool.noConfusion hobj
  | arr es => exact Bool.noConfusion hobj
  | obj ms =>
    have hshape : Json.stringify (Json.obj ms) =
        lbrace :: (stringifyMembers ms ++ [rbrace]) := rfl
    have hmid : btick ∉ stringifyMembers ms := by
      intro hm
      apply hbt
      rw [hshape]
      exact List.mem_cons_of_mem _ (List.mem_append_left _ hm)
    have hcap : findFenced (("\x60\x60\x60json\n" : String).data ++
        Json.stringify (Json.obj ms) ++ ("\n\x60\x60\x60" : String).data) =
        some (Json.stringify (Json.obj ms)) := by
      rw [hshape]
      rw [show ("\x60\x60\x60json\n" : String).data = fenceOpen from rfl,
        show ("\n\x60\x60\x60" : String).data = fenceClose from rfl]
      exact findFenced_fenced (stringifyMembers ms) hmid
    exact extract_of_fenced_parse _ _ _ hcap (parse_stringify _)

/-- Witness for the corrected C3 at a concrete object. -/
theorem roundtrip_extract_witness :
    (Json.obj [(['a'], Json.num 1)]).isObj = true ∧
    btick ∉ Json.stringify (Json.obj [(['a'], Json.num 1)]) ∧
    extractJson (String.mk (("\x60\x60\x60json\n" : String).data ++
      Json.stringify (Json.obj [(['a'], Json.num 1)]) ++ ("\n\x60\x60\x60" : String).data)) =
      some (Json.obj [(['a'], Json.num 1)]) :=
  ⟨rfl, by decide, roundtrip_extract (Json.obj [(['a'], Json.num 1)]) rfl (by decide)⟩

/-- Counterexample to C3 as stated: for the object whose single member
value is the string of a closing brace, a space and three backticks, the
serialization embeds a premature lazy-capture end, the fenced capture
truncates to invalid JSON, the parse error is caught by the outer catch,
and `extractJson` returns `null` instead of the object. -/
theorem roundtrip_fails_on_backticks :
    extractJson (String.mk (("\x60\x60\x60json\n" : String).data ++
      Json.stringify (Json.obj [(['a'],
        Json.str (rbrace :: ' ' :: btick :: btick :: btick :: []))]) ++
      ("\n\x60\x60\x60" : String).data)) ≠
      some (Json.obj [(['a'], Json.str (rbrace :: ' ' :: btick :: btick :: btick :: []))]) := by
  intro h
  rw [show extractJson (String.mk (("\x60\x60\x60json\n" : String).data ++
      Json.stringify (Json.obj [(['a'],
        Json.str (rbrace :: ' ' :: btick :: btick :: btick :: []))]) ++
      ("\n\x60\x60\x60" : String).data)) = none from rfl] at h
  exact Option.noConfusion h

end JsonExtractor
